import Mathlib

/-!
# drone-tree-config: configuration discovery

A shallow embedding of `plugin/plugin.go` (`plugin.Find`, the legacy
single-provider resolver, and `plugin.getGithubFile`) and `plugin/scm.go`
(`Plugin.getScmChanges`), together with the Go library functions they rely
on (`path.Clean`, `path.Join`, `strings.Split`, `strings.SplitN`,
`strings.HasPrefix`, `strconv.Atoi`) and the answers of the GitHub client
(`Repositories.GetContents`, `RepositoryContent.GetContent`).

Go strings are modelled as lists of characters.  The only characters the
code inspects are `/`, `.`, `+`, `-` and the decimal digits, all ASCII, so
on well-formed UTF-8 the character-wise and the byte-wise readings agree.
-/

namespace DroneTreeConfig

/-- Go `string`, as a list of characters. -/
abbrev Str := List Char

/-! ## Go library: `path` -/

/-- The backtracking of `path.Clean` at a `..` element,
`out.w--; for out.w > dotdot && out.index(out.w) != '/' { out.w-- }`,
on the output buffer held in reverse (last written character first).
The character just dropped is the one `out.index(out.w)` reads. -/
def backtrack (dotdot : Nat) : Str → Str
  | [] => []
  | c :: rest => if dotdot < rest.length ∧ c ≠ '/' then backtrack dotdot rest else rest

/-- The test `r+k == n || path[r+k] == '/'` of `path.Clean`, on the rest of
the input from index `r+k` on. -/
def elemEnd (p : Str) : Bool :=
  match p with
  | [] => true
  | c :: _ => c == '/'

/-- The "add slash if needed" of `path.Clean` before a real path element:
`if rooted && out.w != 1 || !rooted && out.w != 0 { out.append('/') }`. -/
def sepBefore (rooted : Bool) (out : Str) : Str :=
  if (rooted ∧ out.length ≠ 1) ∨ (¬ rooted ∧ out.length ≠ 0) then '/' :: out else out

/-- The main loop `for r < n { switch ... }` of `path.Clean`.  The arguments
are: `rooted`; whether the loop is inside the inner copy loop of a real
path element (`for ; r < n && path[r] != '/'; r++`); the unread input
`path[r:]`; the output buffer `buf[:w]` in reverse; and `dotdot`.
The result is the final output buffer, in reverse. -/
def cleanLoop (rooted : Bool) : Bool → Str → Str → Nat → Str
  | _, [], out, _ => out
  | true, c :: rest, out, dotdot =>
    -- copying a real path element
    if c = '/' then cleanLoop rooted false rest out dotdot
    else cleanLoop rooted true rest (c :: out) dotdot
  | false, [c], out, _ =>
    if c = '/' then out          -- empty path element
    else if c = '.' then out     -- . element (r+1 == n)
    else c :: sepBefore rooted out
  | false, c :: c2 :: rest2, out, dotdot =>
    if c = '/' then cleanLoop rooted false (c2 :: rest2) out dotdot
    else if c = '.' ∧ c2 = '/' then cleanLoop rooted false (c2 :: rest2) out dotdot
    else if c = '.' ∧ c2 = '.' ∧ elemEnd rest2 then
      -- .. element: remove to last /
      if dotdot < out.length then cleanLoop rooted false rest2 (backtrack dotdot out) dotdot
      else if rooted then cleanLoop rooted false rest2 out dotdot
      else
        -- cannot backtrack, but not rooted, so append .. element
        cleanLoop rooted false rest2 ('.' :: '.' :: (if 0 < out.length then '/' :: out else out))
          (if 0 < out.length then out.length + 3 else 2)
    else cleanLoop rooted true (c2 :: rest2) (c :: sepBefore rooted out) dotdot

/-- Go `path.Clean`. -/
def Clean (path : Str) : Str :=
  match path with
  | [] => ['.']
  | c :: rest =>
    let out :=
      if c = '/' then cleanLoop true false rest ['/'] 1
      else cleanLoop false false (c :: rest) [] 0
    if out.length = 0 then ['.'] else out.reverse

/-- Go `strings.Join(elems, sep)` for a one-character separator. -/
def joinSep (sep : Char) : List Str → Str
  | [] => []
  | [e] => e
  | e :: e2 :: rest => e ++ sep :: joinSep sep (e2 :: rest)

/-- Go `path.Join`: leading empty elements are ignored, the rest is joined
with slashes and cleaned; the result is empty when all elements are. -/
def Join : List Str → Str
  | [] => []
  | e :: rest => if e = [] then Join rest else Clean (joinSep '/' (e :: rest))

/-! ## Go library: `strings`, `strconv` -/

/-- Go `strings.HasPrefix`. -/
def HasPrefix (s pre : Str) : Bool := pre.isPrefixOf s

/-- Go `strings.Split(s, sep)` for a one-character separator: all the
substrings between separators, one more than there are separators. -/
def Split (sep : Char) : Str → List Str
  | [] => [[]]
  | c :: rest =>
    if c = sep then [] :: Split sep rest
    else
      match Split sep rest with
      | [] => [[c]]
      | e :: es => (c :: e) :: es

/-- Go `strings.SplitN(s, sep, 2)` for a one-character separator: the text
before the first separator and, when there is a separator, the text after. -/
def SplitN2 (sep : Char) : Str → List Str
  | [] => [[]]
  | c :: rest =>
    if c = sep then [[], rest]
    else
      match SplitN2 sep rest with
      | [] => [[c]]
      | e :: es => (c :: e) :: es

/-- The value of a decimal digit character, if it is one. -/
def digitVal (c : Char) : Option Nat :=
  if '0'.toNat ≤ c.toNat ∧ c.toNat ≤ '9'.toNat then some (c.toNat - '0'.toNat) else none

/-- The value of a non-empty string of decimal digits. -/
def parseDigits : Str → Nat → Option Nat
  | [], acc => some acc
  | c :: rest, acc =>
    match digitVal c with
    | none => none
    | some d => parseDigits rest (acc * 10 + d)

/-- Go `strconv.Atoi` on a 64-bit platform: an optional sign, then one or
more decimal digits, the value within the range of `int`; `none` stands
for the `*NumError` it returns otherwise. -/
def Atoi (s : Str) : Option Int :=
  let neg : Bool := s.head? = some '-'
  let digits : Str := if s.head? = some '-' ∨ s.head? = some '+' then s.tail else s
  if digits = [] then none
  else
    match parseDigits digits 0 with
    | none => none
    | some n =>
      let v : Int := if neg then - (n : Int) else (n : Int)
      if - (2 : Int) ^ 63 ≤ v ∧ v < (2 : Int) ^ 63 then some v else none

/-! ## Go maps -/

/-- Go `map[string]β`, as an association list holding each key once. -/
abbrev GoMap (β : Type) := List (Str × β)

/-- The `ok` of `_, ok := m[k]`. -/
def GoMap.has {β : Type} (m : GoMap β) (k : Str) : Bool :=
  m.any (fun kv => kv.1 == k)

/-- The assignment `m[k] = v`: an existing entry of `k` is replaced. -/
def GoMap.set {β : Type} (m : GoMap β) (k : Str) (v : β) : GoMap β :=
  if m.has k then m.map (fun kv => if kv.1 = k then (k, v) else kv) else m ++ [(k, v)]

/-- The read `m[k]`, the zero value `zero` when `k` is absent. -/
def GoMap.at {β : Type} (m : GoMap β) (k : Str) (zero : β) : β :=
  match m.find? (fun kv => kv.1 == k) with
  | some kv => kv.2
  | none => zero

/-! ## `plugin/plugin.go`: the legacy resolver -/

/-- The fields of `drone.Repo` the code reads. -/
structure Repo where
  Namespace : Str
  Name : Str
  Branch : Str
  Config : Str

/-- The fields of `drone.Build` the code reads. -/
structure Build where
  Before : Str
  After : Str
  Ref : Str
  Trigger : Str
  Fork : Str
  Source : Str

/-- The `config.Request` handed to `Find`. -/
structure Request where
  Repo : Repo
  Build : Build

/-- The `before` and `after` passed to `client.Repositories.CompareCommits`
(`plugin.Find`, "get repo changes"). -/
def compareRefs (req : Request) : Str × Str :=
  if req.Build.Fork ≠ [] then
    let user := (SplitN2 '/' req.Build.Fork).headD []
    (req.Repo.Name ++ ':' :: req.Repo.Branch, user ++ ':' :: req.Build.Source)
  else (req.Build.Before, req.Build.After)

/-- What `client.Repositories.GetContents` of go-github answers for a path
at the commit `req.Build.After`; `getGithubFile` reads its first result
`data` and its last result `err`. -/
inductive Contents where
  /-- `err != nil` -/
  | failed
  /-- the path is a file: `data` is not nil and `err` is nil; `content` is
  what `data.GetContent()` returns, `none` when it returns an error -/
  | file (content : Option Str)
  /-- the path is a directory: `data` is nil, the listing is the second
  result, which `getGithubFile` discards, and `err` is nil -/
  | directory
  deriving DecidableEq, Repr

/-- How a call of `getGithubFile` ends. -/
inductive Fetched where
  /-- `return content, nil` -/
  | content (content : Str)
  /-- `return "", err` -/
  | failed
  /-- a run-time panic: `data.GetContent()` dereferences the nil `data` -/
  | nilPanic
  deriving DecidableEq, Repr

/-- The method `plugin.getGithubFile`: "get the contents of a file on
github, if the file is not found throw an error".  After `GetContents`
returns without error, `data.GetContent()` is called with no nil check. -/
def getGithubFile (GetContents : Str → Contents) (file : Str) : Fetched :=
  match GetContents file with
  | .failed => .failed
  | .directory => .nilPanic
  | .file none => .failed
  | .file (some content) => .content content

/-- The state of the loop "collect drone.yml files" of `plugin.Find`:
the locals `files`, `order` and `cache`, and the paths `getGithubFile` has
been called on so far, in call order. -/
structure Collect where
  files : GoMap Str
  order : List Str
  cache : GoMap Bool
  fetched : List Str
  deriving DecidableEq, Repr

/-- The locals before the loop: `files`, `order` and `cache` empty. -/
def Collect.init : Collect := ⟨[], [], [], []⟩

/-- How a stretch of the collection loop ends: it goes on with the locals
`st`, or `getGithubFile` panicked, the locals being `st` at that moment. -/
inductive Run where
  | ok (st : Collect)
  | nilPanic (st : Collect)
  deriving DecidableEq, Repr

/-- The body of the inner loop from "check if file has already been
checked" on, for the candidate path `file`. -/
def checkFile (GetContents : Str → Contents) (file : Str) (st : Collect) : Run :=
  if st.cache.has file then .ok st
  else
    let st : Collect := { st with cache := st.cache.set file true, fetched := st.fetched ++ [file] }
    -- check file on github
    match getGithubFile GetContents file with
    | .nilPanic => .nilPanic st
    | .failed => .ok st
    | .content content =>
      .ok { st with order := st.order ++ [file], files := st.files.set file content }

/-- The inner loop `for !done { ... }` of `plugin.Find`, run for at most
`fuel` iterations from directory `dir`; `none` when the iterations are
used up before `done`. -/
def walk (config : Str) (GetContents : Str → Contents) : Nat → Str → Collect → Option Run
  | 0, _, _ => none
  | fuel + 1, dir, st =>
    let done : Bool := dir = ['/']
    let dir := Join [dir, ['.', '.']]
    let file := Join [dir, config]
    match checkFile GetContents file st with
    | .nilPanic st => some (.nilPanic st)
    | .ok st => if done then some (.ok st) else walk config GetContents fuel dir st

/-- The start of the walk of one changed file: `dir := *file.Filename`,
prefixed with a slash when it has none. -/
def startDir (filename : Str) : Str :=
  if ! HasPrefix filename ['/'] then '/' :: filename else filename

/-- The outer loop `for _, file := range changes.Files`. -/
def collect (config : Str) (GetContents : Str → Contents) (fuel : Nat) :
    List Str → Collect → Option Run
  | [], st => some (.ok st)
  | filename :: rest, st =>
    match walk config GetContents fuel (startDir filename) st with
    | none => none
    | some (.nilPanic st) => some (.nilPanic st)
    | some (.ok st) => collect config GetContents fuel rest st

/-- What `plugin.Find` ends with once the changed files are known. -/
inductive Outcome where
  /-- `return nil, errors.New(msg)` -/
  | error (msg : Str)
  /-- `return &drone.Config{Data: data}, nil` -/
  | config (data : Str)
  /-- a run-time panic: `order[0]` out of range -/
  | indexPanic
  /-- a run-time panic: nil pointer dereference in `getGithubFile` -/
  | nilPanic
  deriving DecidableEq, Repr

/-- The text of the error of "no file found". -/
def noConfigMsg : Str := "Did not found a .drone.yml".toList

/-- The line `fmt.Sprintf("# .drone.yml origin: %s\n", fileName)`. -/
def originLine (fileName : Str) : Str :=
  "# .drone.yml origin: ".toList ++ fileName ++ ['\n']

/-- The separator `"\n---\n"` between two documents. -/
def docSep : Str := "\n---\n".toList

/-- One iteration of `for _, fileName := range order` in the concat branch. -/
def concatStep (files : GoMap Str) (content : Str) (fileName : Str) : Str :=
  let fileContent := files.at fileName []
  let fileName := originLine fileName
  let content := if content ≠ [] then content ++ docSep else content
  content ++ (fileName ++ fileContent ++ ['\n'])

/-- The end of `plugin.Find`, from "no file found" on. -/
def finish (concat : Bool) (st : Collect) : Outcome :=
  if st.files.length = 0 then .error noConfigMsg
  else if ! concat then
    match st.order[0]? with
    | none => .indexPanic
    | some fileName => .config (st.files.at fileName [])
  else .config (st.order.foldl (concatStep st.files) [])

/-- The part of `plugin.Find` after the changed files `changes` have been
obtained: `concat` is `p.concat`, `config` is `req.Repo.Config`,
`GetContents` is the GitHub API behind `getGithubFile`, and every inner
loop may run for `fuel` iterations. -/
def Find (concat : Bool) (config : Str) (GetContents : Str → Contents) (fuel : Nat)
    (changes : List Str) : Option Outcome :=
  match collect config GetContents fuel changes Collect.init with
  | none => none
  | some (.nilPanic _) => some .nilPanic
  | some (.ok st) => some (finish concat st)

/-! ## `plugin/scm.go`: the change-set resolver -/

/-- A call made on `req.Client`. -/
inductive ScmCall where
  | ChangedFilesInPullRequest (pullRequestID : Int)
  | ChangedFilesInDiff (before after : Str)
  deriving DecidableEq, Repr

/-- The two operations of `scm_clients.ScmClient` that `getScmChanges`
uses; each returns a slice (a nil slice is the empty list) and an error
(`none` for `nil`). -/
structure ScmClient (ε : Type) where
  ChangedFilesInPullRequest : Int → List Str × Option ε
  ChangedFilesInDiff : Str → Str → List Str × Option ε

/-- The `error` values `getScmChanges` can return. -/
inductive ScmError (ε : Type) where
  /-- the error of `strconv.Atoi` on the text `s` -/
  | atoi (s : Str)
  /-- an error returned by the SCM client -/
  | client (e : ε)
  deriving DecidableEq, Repr

/-- How a call of `getScmChanges` ends: it returns a slice and an error, or
it panics on `strings.Split(req.Build.Ref, "/")[2]`. -/
inductive ScmResult (ε : Type) where
  | returned (changedFiles : List Str) (err : Option (ScmError ε))
  | indexPanic
  deriving DecidableEq, Repr

/-- The sentinel `before` of a first push. -/
def zeroCommit : Str := "0000000000000000000000000000000000000000".toList

/-- The tail of `getScmChanges`:
`if len(changedFiles) > 0 { ... } else { return nil, nil }; return changedFiles, nil`. -/
def returnChanges {ε : Type} (changedFiles : List Str) : ScmResult ε :=
  if 0 < changedFiles.length then .returned changedFiles none else .returned [] none

/-- The method `Plugin.getScmChanges`: its result and the calls it made on
`req.Client`, in order. -/
def getScmChanges {ε : Type} (client : ScmClient ε) (build : Build) :
    ScmResult ε × List ScmCall :=
  if build.Trigger = "@cron".toList then
    -- cron jobs trigger a full build
    (returnChanges [], [])
  else if HasPrefix build.Ref "refs/pull/".toList then
    -- use pullrequests api to get changed files
    match (Split '/' build.Ref)[2]? with
    | none => (.indexPanic, [])
    | some seg =>
      match Atoi seg with
      | none => (.returned [] (some (.atoi seg)), [])
      | some pullRequestID =>
        -- the error of the call is logged and dropped
        let changedFiles := (client.ChangedFilesInPullRequest pullRequestID).1
        (returnChanges changedFiles, [.ChangedFilesInPullRequest pullRequestID])
  else
    -- use diff to get changed files
    let before :=
      if build.Before = zeroCommit ∨ build.Before = [] then build.After ++ "~1".toList
      else build.Before
    match client.ChangedFilesInDiff before build.After with
    | (_, some err) => (.returned [] (some (.client err)), [.ChangedFilesInDiff before build.After])
    | (changedFiles, none) => (returnChanges changedFiles, [.ChangedFilesInDiff before build.After])

/-! ## Specification-level notions -/

/-- The effect of one `/`-separated element on the element stack of a
rooted path (innermost element first): empty and `.` elements are
dropped, `..` removes the innermost element if there is one, any other
element is pushed. -/
def applyElem (stack : List Str) (e : Str) : List Str :=
  if e = [] ∨ e = ['.'] then stack
  else if e = ['.', '.'] then stack.tail
  else e :: stack

/-- The elements of a changed file's rooted path, innermost first: for
`/a/b/app.go` they are `app.go`, `b`, `a`. -/
def elemStack (filename : Str) : List Str :=
  (Split '/' filename).foldl applyElem []

/-- The rooted path with the given elements (innermost first): `/` for no
element, `/a/b` for `b`, `a`. -/
def dirOf (stack : List Str) : Str :=
  '/' :: joinSep '/' stack.reverse

/-- The directory levels of a changed file, from its containing directory
up to the root: for `/a/b/app.go` they are `/a/b`, `/a`, `/`. -/
def ancestorDirs (filename : Str) : List Str :=
  (elemStack filename).tail.tails.map dirOf

/-- The candidate paths in enumeration order: the changed files in list
order and, within one file, the deepest directory first and the root last. -/
def enumeration (config : Str) (changes : List Str) : List Str :=
  changes.flatMap (fun filename => (ancestorDirs filename).map (fun dir => Join [dir, config]))

/-- Record `p` as seen unless it already is. -/
def seen (acc : List Str) (p : Str) : List Str :=
  if p ∈ acc then acc else acc ++ [p]

/-- The list without its repetitions: every entry at its first occurrence. -/
def firstOccurrences (l : List Str) : List Str :=
  l.foldl seen []

/-- The content `getGithubFile` returns for the path `p`, when it returns
one. -/
def contentOf (GetContents : Str → Contents) (p : Str) : Option Str :=
  match getGithubFile GetContents p with
  | .content content => some content
  | _ => none

/-- The fragment of a candidate path, when fetching it succeeds;
`fetch p` is the content fetched for `p`, if any. -/
def fragmentAt (fetch : Str → Option Str) (p : Str) : Option (Str × Str) :=
  (fetch p).map (fun content => (p, content))

/-- The fragments (path, content) found in one resolution, in
first-discovery order. -/
def fragments (config : Str) (fetch : Str → Option Str) (changes : List Str) :
    List (Str × Str) :=
  (firstOccurrences (enumeration config changes)).filterMap (fragmentAt fetch)

/-- The block of one fragment in aggregate mode: the origin line, the
content, a newline. -/
def block (fragment : Str × Str) : Str :=
  originLine fragment.1 ++ fragment.2 ++ ['\n']

/-- The blocks with the separator between consecutive blocks only. -/
def joinDocs : List Str → Str
  | [] => []
  | [b] => b
  | b :: b2 :: rest => b ++ docSep ++ joinDocs (b2 :: rest)

/-! ## Notions used in the proofs -/

/-- A real path element: no slash, not empty, neither `.` nor `..`. -/
def IsElem (e : Str) : Prop :=
  '/' ∉ e ∧ e ≠ [] ∧ e ≠ ['.'] ∧ e ≠ ['.', '.']

/-- The output buffer of `path.Clean` (in reverse) that holds the rooted
path with the given elements. -/
def renderRev : List Str → Str
  | [] => ['/']
  | [e] => e.reverse ++ ['/']
  | e :: e2 :: rest => e.reverse ++ '/' :: renderRev (e2 :: rest)

/-- The locals after `checkFile` on `file` when the call of
`getGithubFile`, if there is one, returns; `fetch file` is the content it
returns, `none` for an error. -/
def checked (fetch : Str → Option Str) (file : Str) (st : Collect) : Collect :=
  if st.cache.has file then st
  else
    let st : Collect := { st with cache := st.cache.set file true, fetched := st.fetched ++ [file] }
    match fetch file with
    | none => st
    | some content => { st with order := st.order ++ [file], files := st.files.set file content }

/-- The candidate paths checked one after the other, from state `st`, when
every call of `getGithubFile` returns. -/
def scan (fetch : Str → Option Str) (st : Collect) (l : List Str) : Collect :=
  l.foldl (fun s p => checked fetch p s) st

/-- The invariant of the loop "collect drone.yml files": `cache` holds
exactly the paths fetched so far, `files` holds the fragments of the
fetched paths in fetch order, and `order` lists the keys of `files`. -/
def CollectInv (fetch : Str → Option Str) (st : Collect) : Prop :=
  (∀ p, st.cache.has p = true ↔ p ∈ st.fetched)
    ∧ st.files = st.fetched.filterMap (fragmentAt fetch)
    ∧ st.order = st.files.map Prod.fst

/-! ## Concrete inputs -/

/-- A repository with the files `/a/b/config.yml` and `/config.yml`; no
other candidate path exists. -/
def repoDeepAndRoot : Str → Contents := fun p =>
  if p = "/a/b/config.yml".toList then .file (some "deep".toList)
  else if p = "/config.yml".toList then .file (some "root".toList)
  else .failed

/-- A repository with `/a/config.yml` holding `X` and `/config.yml` holding `Y`. -/
def repoXY : Str → Contents := fun p =>
  if p = "/a/config.yml".toList then .file (some ['X'])
  else if p = "/config.yml".toList then .file (some ['Y'])
  else .failed

/-- A repository whose only configuration file is `/config.yml`, holding `X`. -/
def repoRootOnly : Str → Contents := fun p =>
  if p = "/config.yml".toList then .file (some ['X']) else .failed

/-- A repository in which `/a/config.yml` is a directory and no other
candidate path exists. -/
def repoDirectory : Str → Contents := fun p =>
  if p = "/a/config.yml".toList then .directory else .failed

/-- A repository with the file `/a/b/config.yml`, the directory
`/a/config.yml` and the file `/config.yml`. -/
def repoFileThenDirectory : Str → Contents := fun p =>
  if p = "/a/b/config.yml".toList then .file (some "deep".toList)
  else if p = "/a/config.yml".toList then .directory
  else if p = "/config.yml".toList then .file (some "root".toList)
  else .failed

/-- A repository with `/a/b/c/config.yml` holding `X`, `/a/b/config.yml`
holding `Y`, and the directory `/a/config.yml`. -/
def repoTwoFilesThenDirectory : Str → Contents := fun p =>
  if p = "/a/b/c/config.yml".toList then .file (some ['X'])
  else if p = "/a/b/config.yml".toList then .file (some ['Y'])
  else if p = "/a/config.yml".toList then .directory
  else .failed

/-- An SCM client whose pull-request file listing fails (with a nil slice
and an error) and whose diff listing returns one file. -/
def brokenPullRequests : ScmClient Unit :=
  ⟨fun _ => ([], some ()), fun _ _ => (["a.go".toList], none)⟩

/-- A build of the pull request `refs/pull/42/head`. -/
def pullRequest42 : Build :=
  { Before := [], After := "abc".toList, Ref := "refs/pull/42/head".toList,
    Trigger := "hook".toList, Fork := [], Source := [] }

/-- A first push to the branch `main`. -/
def firstPush : Build :=
  { Before := zeroCommit, After := "abc".toList, Ref := "refs/heads/main".toList,
    Trigger := "hook".toList, Fork := [], Source := [] }

/-- A build from the fork `alice/hello` of the repository `octo/hello`. -/
def forkRequest : Request :=
  { Repo := { Namespace := "octo".toList, Name := "hello".toList,
              Branch := "master".toList, Config := ".drone.yml".toList }
    Build := { Before := "111".toList, After := "222".toList, Ref := "refs/heads/feature".toList,
               Trigger := "hook".toList, Fork := "alice/hello".toList,
               Source := "feature".toList } }

/-! ## Lemmas: `strings.Split` and joining -/

theorem Split_ne_nil (sep : Char) (s : Str) : Split sep s ≠ [] := by
  induction s with
  | nil => simp [Split]
  | cons c rest ih =>
    unfold Split
    split
    · simp
    · split <;> simp

theorem Split_noSep (sep : Char) (s : Str) : ∀ e ∈ Split sep s, sep ∉ e := by
  induction s with
  | nil => simp [Split]
  | cons c rest ih =>
    unfold Split
    split
    · intro e he
      rcases List.mem_cons.1 he with h | h
      · subst h; simp
      · exact ih e h
    · rename_i hc
      split
      · intro e he
        simp at he
        subst he
        simp [Ne.symm hc]
      · rename_i e0 es heq
        intro e he
        rw [heq] at ih
        rcases List.mem_cons.1 he with h | h
        · subst h
          have := ih e0 (by simp)
          simp [Ne.symm hc, this]
        · exact ih e (by simp [h])

theorem joinSep_Split (sep : Char) (s : Str) : joinSep sep (Split sep s) = s := by
  induction s with
  | nil => simp [Split, joinSep]
  | cons c rest ih =>
    unfold Split
    split
    · rename_i hc
      subst hc
      cases h : Split c rest with
      | nil => exact absurd h (Split_ne_nil _ _)
      | cons e es => rw [h] at ih; simp [joinSep, ih]
    · cases h : Split sep rest with
      | nil => exact absurd h (Split_ne_nil _ _)
      | cons e es =>
        rw [h] at ih
        cases es with
        | nil => simpa [joinSep] using ih
        | cons e2 es2 => simp only [joinSep] at ih ⊢; simp [ih]

theorem Split_cons_sep (sep : Char) (rest : Str) :
    Split sep (sep :: rest) = [] :: Split sep rest := by
  simp [Split]

theorem Split_cons_ne (sep c : Char) (rest e : Str) (es : List Str) (hc : c ≠ sep)
    (h : Split sep rest = e :: es) : Split sep (c :: rest) = (c :: e) :: es := by
  simp [Split, hc, h]

theorem Split_append (sep : Char) (a b : Str) :
    Split sep (a ++ sep :: b) = Split sep a ++ Split sep b := by
  induction a with
  | nil => simp [Split_cons_sep, Split]
  | cons c rest ih =>
    simp only [List.cons_append]
    by_cases hc : c = sep
    · subst hc
      simp [Split_cons_sep, ih]
    · cases h : Split sep rest with
      | nil => exact absurd h (Split_ne_nil _ _)
      | cons e es =>
        rw [Split_cons_ne sep c rest e es hc h,
          Split_cons_ne sep c _ e (es ++ Split sep b) hc (by rw [ih, h]; rfl)]
        rfl

theorem Split_of_noSep (sep : Char) (e : Str) (h : sep ∉ e) : Split sep e = [e] := by
  induction e with
  | nil => simp [Split]
  | cons c rest ih =>
    simp only [List.mem_cons, not_or] at h
    unfold Split
    rw [if_neg (Ne.symm h.1), ih h.2]

theorem Split_joinSep (sep : Char) (l : List Str) (hl : l ≠ []) (h : ∀ e ∈ l, sep ∉ e) :
    Split sep (joinSep sep l) = l := by
  induction l with
  | nil => exact absurd rfl hl
  | cons e rest ih =>
    cases rest with
    | nil => simpa [joinSep] using Split_of_noSep sep e (h e (by simp))
    | cons e2 rest2 =>
      simp only [joinSep]
      rw [Split_append, Split_of_noSep sep e (h e (by simp)),
        ih (by simp) (fun x hx => h x (List.mem_cons_of_mem _ hx))]
      simp

theorem joinSep_append_singleton (sep : Char) (l : List Str) (e : Str) (hl : l ≠ []) :
    joinSep sep (l ++ [e]) = joinSep sep l ++ sep :: e := by
  induction l with
  | nil => exact absurd rfl hl
  | cons x rest ih =>
    cases rest with
    | nil => simp [joinSep]
    | cons y rest2 =>
      have := ih (by simp)
      simp only [List.cons_append, joinSep] at this ⊢
      simp [this]

/-! ## Lemmas: `path.Clean` on rooted paths -/

theorem cleanLoop_nil (rooted b : Bool) (out : Str) (dd : Nat) :
    cleanLoop rooted b [] out dd = out := by
  cases b <;> simp [cleanLoop]

theorem cleanLoop_slash (rooted : Bool) (t out : Str) (dd : Nat) :
    cleanLoop rooted false ('/' :: t) out dd = cleanLoop rooted false t out dd := by
  cases t with
  | nil => simp [cleanLoop]
  | cons c t2 => simp [cleanLoop]

theorem cleanLoop_copy_end (rooted : Bool) (rest out : Str) (dd : Nat) (h : elemEnd rest = true) :
    cleanLoop rooted true rest out dd = cleanLoop rooted false rest out dd := by
  cases rest with
  | nil => simp [cleanLoop]
  | cons c t =>
    have hc : c = '/' := by simpa [elemEnd] using h
    subst hc
    rw [cleanLoop_slash]
    simp [cleanLoop]

theorem cleanLoop_copy_cons (rooted : Bool) (c : Char) (rest out : Str) (dd : Nat) (hc : c ≠ '/') :
    cleanLoop rooted true (c :: rest) out dd = cleanLoop rooted true rest (c :: out) dd := by
  simp [cleanLoop, hc]

theorem cleanLoop_copy (rooted : Bool) (e rest : Str) (dd : Nat) (he : '/' ∉ e)
    (h : elemEnd rest = true) (out : Str) :
    cleanLoop rooted true (e ++ rest) out dd = cleanLoop rooted false rest (e.reverse ++ out) dd := by
  induction e generalizing out with
  | nil => simpa using cleanLoop_copy_end rooted rest out dd h
  | cons c e2 ih =>
    simp only [List.mem_cons, not_or] at he
    have hc : c ≠ '/' := Ne.symm he.1
    rw [List.cons_append, cleanLoop_copy_cons rooted c _ out dd hc, ih he.2]
    simp

theorem cleanLoop_elem (rooted : Bool) (e rest out : Str) (dd : Nat) (he : IsElem e)
    (h : elemEnd rest = true) :
    cleanLoop rooted false (e ++ rest) out dd
      = cleanLoop rooted false rest (e.reverse ++ sepBefore rooted out) dd := by
  obtain ⟨hs, hne, hdot, hdd⟩ := he
  cases e with
  | nil => exact absurd rfl hne
  | cons c e2 =>
    simp only [List.mem_cons, not_or] at hs
    have hc : c ≠ '/' := Ne.symm hs.1
    cases hrest : e2 ++ rest with
    | nil =>
      have h1 : e2 = [] := (List.append_eq_nil.1 hrest).1
      have h2 : rest = [] := (List.append_eq_nil.1 hrest).2
      subst h1; subst h2
      have hc2 : c ≠ '.' := fun hh => hdot (by rw [hh])
      simp [cleanLoop, hc, hc2]
    | cons c2 r2 =>
      have key : cleanLoop rooted false (c :: c2 :: r2) out dd
          = cleanLoop rooted true (c2 :: r2) (c :: sepBefore rooted out) dd := by
        have n1 : ¬ (c = '.' ∧ c2 = '/') := by
          rintro ⟨h1, h2⟩
          cases e2 with
          | nil => exact hdot (by rw [h1])
          | cons x e3 =>
            simp only [List.cons_append, List.cons.injEq] at hrest
            exact hs.2 (by rw [← h2, ← hrest.1]; simp)
        have n2 : ¬ (c = '.' ∧ c2 = '.' ∧ elemEnd r2 = true) := by
          rintro ⟨h1, h2, h3⟩
          cases e2 with
          | nil =>
            simp only [List.nil_append] at hrest
            rw [hrest] at h
            simp [elemEnd, h2] at h
          | cons x e3 =>
            simp only [List.cons_append, List.cons.injEq] at hrest
            cases e3 with
            | nil => exact hdd (by rw [h1, hrest.1, h2])
            | cons y e4 =>
              simp only [List.cons_append] at hrest
              rw [← hrest.2] at h3
              have : y = '/' := by simpa [elemEnd] using h3
              exact hs.2 (by rw [← this]; simp)
        simp only [cleanLoop, if_neg hc, if_neg n1, if_neg n2]
      simp only [List.cons_append, hrest, key]
      rw [← hrest, cleanLoop_copy rooted e2 rest dd hs.2 h]
      simp

theorem renderRev_cons (e : Str) (S : List Str) (hS : S ≠ []) :
    renderRev (e :: S) = e.reverse ++ '/' :: renderRev S := by
  cases S with
  | nil => exact absurd rfl hS
  | cons e2 rest => rfl

theorem renderRev_length_pos (S : List Str) : 1 ≤ (renderRev S).length := by
  match S with
  | [] => simp [renderRev]
  | [e] => simp [renderRev]
  | e :: e2 :: rest => simp [renderRev]; omega

theorem renderRev_length_cons (e : Str) (S : List Str) (he : e ≠ []) :
    1 < (renderRev (e :: S)).length := by
  have hpos : 0 < e.length := List.length_pos.2 he
  cases S with
  | nil => simp [renderRev]; omega
  | cons e2 rest => simp [renderRev]; omega

theorem sepBefore_renderRev (e : Str) (S : List Str) (hS : ∀ x ∈ S, IsElem x) :
    e.reverse ++ sepBefore true (renderRev S) = renderRev (e :: S) := by
  cases S with
  | nil => simp [sepBefore, renderRev]
  | cons e2 rest =>
    have h1 := renderRev_length_cons e2 rest (hS e2 (by simp)).2.1
    have h2 : (renderRev (e2 :: rest)).length ≠ 1 := by omega
    rw [renderRev_cons e (e2 :: rest) (by simp)]
    simp [sepBefore, h2]

theorem backtrack_through (x T : Str) (hx : '/' ∉ x) (hT : 1 ≤ T.length) :
    backtrack 1 (x ++ '/' :: T) = T := by
  induction x with
  | nil => simp [backtrack]
  | cons c x2 ih =>
    simp only [List.mem_cons, not_or] at hx
    have hc : c ≠ '/' := Ne.symm hx.1
    have hl : 1 < (x2 ++ '/' :: T).length := by simp; omega
    simp only [List.cons_append, backtrack]
    rw [if_pos ⟨hl, hc⟩]
    exact ih hx.2

theorem backtrack_to_root (x : Str) (hne : x ≠ []) (hx : '/' ∉ x) :
    backtrack 1 (x ++ ['/']) = ['/'] := by
  induction x with
  | nil => exact absurd rfl hne
  | cons c x2 ih =>
    simp only [List.mem_cons, not_or] at hx
    have hc : c ≠ '/' := Ne.symm hx.1
    cases x2 with
    | nil => simp [backtrack]
    | cons c2 x3 =>
      have hl : 1 < (c2 :: x3 ++ ['/']).length := by simp
      simp only [List.cons_append, backtrack] at ih ⊢
      rw [if_pos ⟨by simp, hc⟩]
      exact ih (by simp) hx.2

theorem backtrack_renderRev (e : Str) (S : List Str) (he : IsElem e) :
    backtrack 1 (renderRev (e :: S)) = renderRev S := by
  have hs : '/' ∉ e.reverse := by simpa using he.1
  cases S with
  | nil =>
    simpa [renderRev] using backtrack_to_root e.reverse (by simpa using he.2.1) hs
  | cons e2 rest =>
    rw [renderRev_cons e (e2 :: rest) (by simp)]
    exact backtrack_through e.reverse _ hs (renderRev_length_pos _)

theorem isElem_of_not (e : Str) (hs : '/' ∉ e) (h1 : ¬ (e = [] ∨ e = ['.']))
    (h2 : e ≠ ['.', '.']) : IsElem e :=
  ⟨hs, fun h => h1 (Or.inl h), fun h => h1 (Or.inr h), h2⟩

theorem applyElem_valid (S : List Str) (e : Str) (hs : '/' ∉ e) (hS : ∀ x ∈ S, IsElem x) :
    ∀ x ∈ applyElem S e, IsElem x := by
  unfold applyElem
  split
  · exact hS
  · rename_i h1
    split
    · intro x hx
      exact hS x (List.mem_of_mem_tail hx)
    · rename_i h2
      intro x hx
      rcases List.mem_cons.1 hx with h | h
      · subst h; exact isElem_of_not _ hs h1 h2
      · exact hS x h

theorem foldl_applyElem_valid (l : List Str) (hl : ∀ e ∈ l, '/' ∉ e) (S : List Str)
    (hS : ∀ x ∈ S, IsElem x) : ∀ x ∈ l.foldl applyElem S, IsElem x := by
  induction l generalizing S with
  | nil => simpa using hS
  | cons e rest ih =>
    simp only [List.foldl_cons]
    exact ih (fun x hx => hl x (List.mem_cons_of_mem _ hx)) _
      (applyElem_valid S e (hl e (by simp)) hS)

theorem cleanLoop_step (e rest : Str) (S : List Str) (hs : '/' ∉ e) (hrest : elemEnd rest = true)
    (hS : ∀ x ∈ S, IsElem x) :
    cleanLoop true false (e ++ rest) (renderRev S) 1
      = cleanLoop true false rest (renderRev (applyElem S e)) 1 := by
  by_cases h1 : e = [] ∨ e = ['.']
  · rcases h1 with h | h
    · subst h; simp [applyElem]
    · subst h
      cases rest with
      | nil => simp [applyElem, cleanLoop]
      | cons c t =>
        have hc : c = '/' := by simpa [elemEnd] using hrest
        subst hc
        simp [applyElem, cleanLoop]
  · by_cases h2 : e = ['.', '.']
    · subst h2
      have happ : applyElem S ['.', '.'] = S.tail := by simp [applyElem]
      rw [happ]
      have hstep : cleanLoop true false (['.', '.'] ++ rest) (renderRev S) 1
          = if 1 < (renderRev S).length then cleanLoop true false rest (backtrack 1 (renderRev S)) 1
            else cleanLoop true false rest (renderRev S) 1 := by
        simp [cleanLoop, hrest]
      rw [hstep]
      cases S with
      | nil => simp [renderRev]
      | cons x S2 =>
        have hx := hS x (by simp)
        rw [if_pos (renderRev_length_cons x S2 hx.2.1), backtrack_renderRev x S2 hx]
        rfl
    · have he := isElem_of_not e hs h1 h2
      rw [cleanLoop_elem true e rest _ 1 he hrest, sepBefore_renderRev e S hS]
      simp [applyElem, h1, h2]

theorem cleanLoop_rooted (l : List Str) (hl : ∀ e ∈ l, '/' ∉ e) (S : List Str)
    (hS : ∀ x ∈ S, IsElem x) :
    cleanLoop true false (joinSep '/' l) (renderRev S) 1 = renderRev (l.foldl applyElem S) := by
  induction l generalizing S with
  | nil => simp [joinSep, cleanLoop]
  | cons e rest ih =>
    cases rest with
    | nil =>
      have := cleanLoop_step e [] S (hl e (by simp)) rfl hS
      simpa [joinSep, cleanLoop_nil] using this
    | cons e2 rest2 =>
      simp only [joinSep, List.foldl_cons]
      rw [cleanLoop_step e _ S (hl e (by simp)) (by simp [elemEnd]) hS, cleanLoop_slash]
      have := ih (fun x hx => hl x (List.mem_cons_of_mem _ hx)) (applyElem S e)
        (applyElem_valid S e (hl e (by simp)) hS)
      simpa using this

theorem renderRev_reverse (S : List Str) : (renderRev S).reverse = dirOf S := by
  unfold dirOf
  induction S with
  | nil => simp [renderRev, joinSep]
  | cons e rest ih =>
    cases rest with
    | nil => simp [renderRev, joinSep]
    | cons e2 rest2 =>
      rw [renderRev_cons e _ (by simp)]
      simp only [List.reverse_append, List.reverse_cons, List.reverse_reverse] at ih ⊢
      rw [joinSep_append_singleton '/' _ e (by simp)]
      simp [ih]

/-- Cleaning a rooted path gives the rooted path of its element stack. -/
theorem Clean_rooted (a : Str) :
    Clean ('/' :: a) = dirOf ((Split '/' a).foldl applyElem []) := by
  have h := cleanLoop_rooted (Split '/' a) (Split_noSep '/' a) [] (by simp)
  rw [joinSep_Split] at h
  have h0 : renderRev [] = ['/'] := rfl
  rw [h0] at h
  have hpos := renderRev_length_pos ((Split '/' a).foldl applyElem [])
  simp only [Clean, if_true, h]
  rw [if_neg (by omega), renderRev_reverse]

/-! ## Lemmas: `path.Join` on clean rooted directories -/

theorem foldl_applyElem_elems (l : List Str) (hl : ∀ e ∈ l, IsElem e) (T : List Str) :
    l.foldl applyElem T = l.reverse ++ T := by
  induction l generalizing T with
  | nil => simp
  | cons e rest ih =>
    obtain ⟨_, h1, h2, h3⟩ := hl e (by simp)
    have : applyElem T e = e :: T := by simp [applyElem, h1, h2, h3]
    simp only [List.foldl_cons, this]
    rw [ih (fun x hx => hl x (List.mem_cons_of_mem _ hx))]
    simp

/-- The element stack of a clean rooted path is the stack it was built from. -/
theorem elems_dirOf (S : List Str) (hS : ∀ x ∈ S, IsElem x) :
    (Split '/' (joinSep '/' S.reverse)).foldl applyElem [] = S := by
  cases hS0 : S with
  | nil => simp [joinSep, Split, applyElem]
  | cons e rest =>
    rw [← hS0]
    have hne : S.reverse ≠ [] := by simp [hS0]
    rw [Split_joinSep '/' S.reverse hne (fun x hx => (hS x (List.mem_reverse.1 hx)).1),
      foldl_applyElem_elems S.reverse (fun x hx => hS x (List.mem_reverse.1 hx))]
    simp

theorem dirOf_injective (S T : List Str) (hS : ∀ x ∈ S, IsElem x) (hT : ∀ x ∈ T, IsElem x)
    (h : dirOf S = dirOf T) : S = T := by
  have h2 : joinSep '/' S.reverse = joinSep '/' T.reverse := by
    simpa [dirOf] using h
  rw [← elems_dirOf S hS, ← elems_dirOf T hT, h2]

theorem dirOf_eq_root (S : List Str) (hS : ∀ x ∈ S, IsElem x) : dirOf S = ['/'] ↔ S = [] := by
  constructor
  · intro h
    exact dirOf_injective S [] hS (by simp) (by rw [h]; rfl)
  · intro h
    subst h
    rfl

theorem Join_rooted (a x : Str) :
    Join ['/' :: a, x]
      = dirOf ((Split '/' x).foldl applyElem ((Split '/' a).foldl applyElem [])) := by
  have : Join ['/' :: a, x] = Clean ('/' :: (a ++ '/' :: x)) := by
    simp [Join, joinSep]
  rw [this, Clean_rooted, Split_append, List.foldl_append]

theorem Join_dirOf (S : List Str) (hS : ∀ x ∈ S, IsElem x) (x : Str) :
    Join [dirOf S, x] = dirOf ((Split '/' x).foldl applyElem S) := by
  unfold dirOf
  rw [Join_rooted, elems_dirOf S hS]
  rfl

theorem Join_dirOf_parent (S : List Str) (hS : ∀ x ∈ S, IsElem x) :
    Join [dirOf S, ['.', '.']] = dirOf S.tail := by
  rw [Join_dirOf S hS]
  simp [Split, applyElem]

theorem elemStack_valid (f : Str) : ∀ x ∈ elemStack f, IsElem x :=
  foldl_applyElem_valid _ (Split_noSep '/' f) [] (by simp)

theorem startDir_spec (f : Str) :
    ∃ a, startDir f = '/' :: a ∧ elemStack f = (Split '/' a).foldl applyElem []
      ∧ a.length ≤ f.length := by
  cases f with
  | nil => exact ⟨[], by simp [startDir, HasPrefix], rfl, by simp⟩
  | cons c r =>
    by_cases hc : c = '/'
    · subst hc
      refine ⟨r, by simp [startDir, HasPrefix], ?_, by simp⟩
      simp [elemStack, Split_cons_sep, applyElem]
    · have hc2 : ¬ '/' = c := fun h => hc h.symm
      refine ⟨c :: r, by simp [startDir, HasPrefix, hc2], rfl, by simp⟩

theorem foldl_applyElem_length (l : List Str) (S : List Str) :
    (l.foldl applyElem S).length ≤ S.length + l.length := by
  induction l generalizing S with
  | nil => simp
  | cons e rest ih =>
    have h1 : (applyElem S e).length ≤ S.length + 1 := by
      unfold applyElem
      split
      · omega
      · split
        · simp; omega
        · simp
    have := ih (applyElem S e)
    simp only [List.foldl_cons, List.length_cons]
    omega

theorem Split_length (sep : Char) (s : Str) : (Split sep s).length ≤ s.length + 1 := by
  induction s with
  | nil => simp [Split]
  | cons c rest ih =>
    by_cases hc : c = sep
    · subst hc
      simp [Split_cons_sep]; omega
    · cases h : Split sep rest with
      | nil => exact absurd h (Split_ne_nil _ _)
      | cons e es =>
        rw [Split_cons_ne sep c rest e es hc h]
        rw [h] at ih
        simp at ih ⊢
        omega

theorem elemStack_length (f : Str) : (elemStack f).length ≤ f.length + 1 := by
  have h1 := foldl_applyElem_length (Split '/' f) []
  have h2 := Split_length '/' f
  unfold elemStack
  simp at h1
  omega

/-! ## Lemmas: the walk of one changed file -/

theorem GoMap.has_set {β : Type} (m : GoMap β) (k q : Str) (v : β) :
    (m.set k v).has q = true ↔ (m.has q = true ∨ q = k) := by
  unfold GoMap.set
  split
  · rename_i hk
    have : (List.map (fun kv : Str × β => if kv.1 = k then (k, v) else kv) m).any
        (fun kv => kv.1 == q) = m.any (fun kv => kv.1 == q) := by
      rw [List.any_map]
      congr 1
      funext kv
      by_cases h : kv.1 = k <;> simp [h]
    unfold GoMap.has at hk ⊢
    rw [this]
    constructor
    · exact Or.inl
    · rintro (h | h)
      · exact h
      · subst h; exact hk
  · unfold GoMap.has
    rw [List.any_append]
    simp only [Bool.or_eq_true, List.any_cons, List.any_nil, Bool.or_false, beq_iff_eq]
    constructor
    · rintro (h | h)
      · exact Or.inl h
      · exact Or.inr h.symm
    · rintro (h | h)
      · exact Or.inl h
      · exact Or.inr h.symm

theorem checked_cache (g : Str → Option Str) (p : Str) (st : Collect) :
    (checked g p st).cache.has p = true := by
  unfold checked
  split
  · assumption
  · split <;> simp [GoMap.has_set]

theorem checked_idem (g : Str → Option Str) (p : Str) (st : Collect) :
    checked g p (checked g p st) = checked g p st := by
  have h := checked_cache g p st
  generalize checked g p st = st2 at h ⊢
  simp [checked, h]

theorem scan_cons (g : Str → Option Str) (st : Collect) (p : Str) (l : List Str) :
    scan g st (p :: l) = scan g (checked g p st) l := rfl

/-- When the candidate is not a directory, `checkFile` goes on, with the
locals that `checked` describes. -/
theorem checkFile_ok (GetContents : Str → Contents) (file : Str) (st : Collect)
    (h : GetContents file ≠ .directory) :
    checkFile GetContents file st = .ok (checked (contentOf GetContents) file st) := by
  unfold checkFile checked contentOf getGithubFile
  split
  · rfl
  · cases hg : GetContents file with
    | failed => simp
    | directory => exact absurd hg h
    | file c => cases c <;> simp

theorem walk_succ (config : Str) (GetContents : Str → Contents) (n : Nat) (dir : Str)
    (st : Collect) (h : GetContents (Join [Join [dir, ['.', '.']], config]) ≠ .directory) :
    walk config GetContents (n + 1) dir st
      = if dir = ['/'] then
          some (.ok (checked (contentOf GetContents) (Join [Join [dir, ['.', '.']], config]) st))
        else walk config GetContents n (Join [dir, ['.', '.']])
          (checked (contentOf GetContents) (Join [Join [dir, ['.', '.']], config]) st) := by
  simp only [walk, checkFile_ok _ _ _ h, decide_eq_true_eq]

theorem scan_append (g : Str → Option Str) (st : Collect) (l1 l2 : List Str) :
    scan g st (l1 ++ l2) = scan g (scan g st l1) l2 := by
  simp [scan, List.foldl_append]

theorem walk_clean (config : Str) (GetContents : Str → Contents) (S : List Str)
    (hS : ∀ x ∈ S, IsElem x) (fuel : Nat) (hfuel : S.length < fuel)
    (hdir : ∀ T ∈ S.tails.map List.tail, GetContents (Join [dirOf T, config]) ≠ .directory)
    (st : Collect) :
    walk config GetContents fuel (dirOf S) st
      = some (.ok (scan (contentOf GetContents) st
          (((S.tails.map List.tail).map dirOf).map (fun dir => Join [dir, config])))) := by
  induction S generalizing fuel st with
  | nil =>
    cases fuel with
    | zero => omega
    | succ n =>
      have h1 : Join [dirOf [], ['.', '.']] = dirOf [] := by decide
      have h2 : dirOf [] = ['/'] := rfl
      rw [walk_succ _ _ _ _ _ (by rw [h1]; exact hdir [] (by simp)), h1, if_pos h2]
      rfl
  | cons e S2 ih =>
    cases fuel with
    | zero => omega
    | succ n =>
      have hS2 : ∀ x ∈ S2, IsElem x := fun x hx => hS x (List.mem_cons_of_mem _ hx)
      have h1 : Join [dirOf (e :: S2), ['.', '.']] = dirOf S2 := by
        rw [Join_dirOf_parent _ hS]; rfl
      have h2 : ¬ dirOf (e :: S2) = ['/'] := by
        rw [dirOf_eq_root _ hS]; simp
      have hn : S2.length < n := by simp at hfuel; omega
      have hdir2 : ∀ T ∈ S2.tails.map List.tail,
          GetContents (Join [dirOf T, config]) ≠ .directory :=
        fun T hT => hdir T (by simp only [List.tails, List.map_cons]; exact List.mem_cons_of_mem _ hT)
      rw [walk_succ _ _ _ _ _ (by rw [h1]; exact hdir S2 (by simp [List.tails])), h1, if_neg h2,
        ih hS2 n hn hdir2]
      rfl

theorem scan_tails (config : Str) (g : Str → Option Str) (T : List Str) (st : Collect) :
    scan g (checked g (Join [dirOf T, config]) st)
        (((T.tails.map List.tail).map dirOf).map (fun dir => Join [dir, config]))
      = scan g st ((T.tails.map dirOf).map (fun dir => Join [dir, config])) := by
  induction T generalizing st with
  | nil => simp [scan, checked_idem]
  | cons e T2 ih =>
    have := ih (checked g (Join [dirOf (e :: T2), config]) st)
    simp only [List.tails, List.map_cons, scan_cons, List.tail_cons] at this ⊢
    exact this

/-- When no candidate of the changed file is a directory, the inner loop
of `plugin.Find` checks the candidate of every directory level of the file,
deepest first; the iterations it needs are at most the length of the
file name plus two. -/
theorem walk_startDir (config : Str) (GetContents : Str → Contents) (f : Str) (fuel : Nat)
    (hfuel : f.length + 2 ≤ fuel)
    (hdir : ∀ dir ∈ ancestorDirs f, GetContents (Join [dir, config]) ≠ .directory)
    (st : Collect) :
    walk config GetContents fuel (startDir f) st
      = some (.ok (scan (contentOf GetContents) st
          ((ancestorDirs f).map (fun dir => Join [dir, config])))) := by
  obtain ⟨a, ha, hst, hlen⟩ := startDir_spec f
  have hval := elemStack_valid f
  have hT : ∀ x ∈ (elemStack f).tail, IsElem x := fun x hx => hval x (List.mem_of_mem_tail hx)
  have hjoin : Join ['/' :: a, ['.', '.']] = dirOf (elemStack f).tail := by
    rw [Join_rooted, ← hst]
    simp [Split, applyElem]
  have hsuf : ∀ U, U <:+ (elemStack f).tail → GetContents (Join [dirOf U, config]) ≠ .directory :=
    fun U hU => hdir (dirOf U) (List.mem_map.2 ⟨U, (List.mem_tails _ _).2 hU, rfl⟩)
  cases fuel with
  | zero => omega
  | succ n =>
    rw [ha, walk_succ _ _ _ _ _ (by rw [hjoin]; exact hsuf _ (List.suffix_refl _)), hjoin]
    by_cases hdone : a = []
    · subst hdone
      have h0 : elemStack f = [] := by rw [hst]; simp [Split, applyElem]
      simp [ancestorDirs, h0, scan]
    · have hslash : ¬ ('/' :: a) = ['/'] := by simpa using hdone
      have hl : (elemStack f).tail.length < n := by
        have := elemStack_length f
        simp only [List.length_tail]
        omega
      have hdir2 : ∀ U ∈ (elemStack f).tail.tails.map List.tail,
          GetContents (Join [dirOf U, config]) ≠ .directory := by
        intro U hU
        obtain ⟨V, hV, hVU⟩ := List.mem_map.1 hU
        subst hVU
        exact hsuf _ ((List.tail_suffix V).trans ((List.mem_tails _ _).1 hV))
      rw [if_neg hslash, walk_clean config GetContents _ hT n hl hdir2, scan_tails]
      rfl

/-! ## Lemmas: the collection loop -/

theorem collect_eq_scan (config : Str) (GetContents : Str → Contents) (fuel : Nat)
    (changes : List Str) (hfuel : ∀ f ∈ changes, f.length + 2 ≤ fuel)
    (hdir : ∀ p ∈ enumeration config changes, GetContents p ≠ .directory) (st : Collect) :
    collect config GetContents fuel changes st
      = some (.ok (scan (contentOf GetContents) st (enumeration config changes))) := by
  induction changes generalizing st with
  | nil => simp [collect, enumeration, scan]
  | cons f rest ih =>
    have hd1 : ∀ dir ∈ ancestorDirs f, GetContents (Join [dir, config]) ≠ .directory := by
      intro dir hmem
      apply hdir
      simp only [enumeration, List.flatMap_cons, List.mem_append]
      exact Or.inl (List.mem_map.2 ⟨dir, hmem, rfl⟩)
    have hd2 : ∀ p ∈ enumeration config rest, GetContents p ≠ .directory := by
      intro p hmem
      apply hdir
      simp only [enumeration, List.flatMap_cons, List.mem_append]
      exact Or.inr hmem
    simp only [collect, walk_startDir config GetContents f fuel (hfuel f (by simp)) hd1]
    rw [ih (fun x hx => hfuel x (List.mem_cons_of_mem _ hx)) hd2]
    simp [enumeration, scan_append]

theorem mem_seen (acc : List Str) (p x : Str) : x ∈ seen acc p ↔ x ∈ acc ∨ x = p := by
  unfold seen
  split
  · rename_i h
    constructor
    · exact Or.inl
    · rintro (h1 | h1)
      · exact h1
      · subst h1; exact h
  · simp

theorem mem_foldl_seen (l acc : List Str) (x : Str) :
    x ∈ l.foldl seen acc ↔ x ∈ acc ∨ x ∈ l := by
  induction l generalizing acc with
  | nil => simp
  | cons p rest ih =>
    simp only [List.foldl_cons, ih, mem_seen, List.mem_cons]
    tauto

theorem nodup_seen (acc : List Str) (p : Str) (h : acc.Nodup) : (seen acc p).Nodup := by
  unfold seen
  split
  · exact h
  · rename_i hp
    rw [List.nodup_append]
    refine ⟨h, by simp, ?_⟩
    intro a ha hb
    simp at hb
    subst hb
    exact hp ha

theorem nodup_foldl_seen (l acc : List Str) (h : acc.Nodup) : (l.foldl seen acc).Nodup := by
  induction l generalizing acc with
  | nil => simpa using h
  | cons p rest ih => exact ih _ (nodup_seen acc p h)

theorem foldl_seen_prefix (l acc : List Str) : ∃ extra, l.foldl seen acc = acc ++ extra := by
  induction l generalizing acc with
  | nil => exact ⟨[], by simp⟩
  | cons p rest ih =>
    obtain ⟨e, he⟩ := ih (seen acc p)
    simp only [List.foldl_cons, he]
    unfold seen
    split
    · exact ⟨e, rfl⟩
    · exact ⟨p :: e, by simp⟩

theorem mem_firstOccurrences (l : List Str) (x : Str) : x ∈ firstOccurrences l ↔ x ∈ l := by
  simp [firstOccurrences, mem_foldl_seen]

theorem nodup_firstOccurrences (l : List Str) : (firstOccurrences l).Nodup :=
  nodup_foldl_seen l [] List.nodup_nil

theorem GoMap.has_iff {β : Type} (m : GoMap β) (k : Str) :
    m.has k = true ↔ ∃ kv ∈ m, kv.1 = k := by
  unfold GoMap.has
  rw [List.any_eq_true]
  constructor
  · rintro ⟨kv, h1, h2⟩
    exact ⟨kv, h1, by simpa using h2⟩
  · rintro ⟨kv, h1, h2⟩
    exact ⟨kv, h1, by simpa using h2⟩

theorem checked_inv (g : Str → Option Str) (p : Str) (st : Collect) (h : CollectInv g st) :
    CollectInv g (checked g p st) ∧ (checked g p st).fetched = seen st.fetched p := by
  obtain ⟨hc, hf, ho⟩ := h
  unfold checked
  split
  · rename_i hp
    have : p ∈ st.fetched := (hc p).1 hp
    exact ⟨⟨hc, hf, ho⟩, by simp [seen, this]⟩
  · rename_i hp
    have hnot : p ∉ st.fetched := fun hh => hp ((hc p).2 hh)
    have hseen : seen st.fetched p = st.fetched ++ [p] := by simp [seen, hnot]
    have hcache : ∀ q, (st.cache.set p true).has q = true ↔ q ∈ st.fetched ++ [p] := by
      intro q
      rw [GoMap.has_set, hc q]
      simp
    split
    · rename_i hg
      refine ⟨⟨hcache, ?_, ho⟩, hseen.symm⟩
      simp [List.filterMap_append, fragmentAt, hg, hf]
    · rename_i content hg
      have hfiles : st.files.has p = false := by
        rw [Bool.eq_false_iff]
        intro hh
        obtain ⟨kv, hkv, hk⟩ := (GoMap.has_iff _ _).1 hh
        rw [hf] at hkv
        obtain ⟨q, hq, hqe⟩ := List.mem_filterMap.1 hkv
        unfold fragmentAt at hqe
        cases hgq : g q with
        | none => simp [hgq] at hqe
        | some c =>
          simp only [hgq, Option.map_some', Option.some.injEq] at hqe
          rw [← hqe] at hk
          simp only at hk
          exact hnot (hk ▸ hq)
      have hset : st.files.set p content = st.files ++ [(p, content)] := by
        simp [GoMap.set, hfiles]
      refine ⟨⟨hcache, ?_, ?_⟩, hseen.symm⟩
      · simp only [hset]
        simp [List.filterMap_append, fragmentAt, hg, hf]
      · simp only [hset]
        simp [ho]

theorem scan_inv (g : Str → Option Str) (l : List Str) (st : Collect) (h : CollectInv g st) :
    CollectInv g (scan g st l) ∧ (scan g st l).fetched = l.foldl seen st.fetched := by
  induction l generalizing st with
  | nil => exact ⟨h, rfl⟩
  | cons p rest ih =>
    obtain ⟨h1, h2⟩ := checked_inv g p st h
    obtain ⟨h3, h4⟩ := ih _ h1
    rw [scan_cons]
    exact ⟨h3, by rw [h4, h2]; rfl⟩

theorem collectInv_init (g : Str → Option Str) : CollectInv g Collect.init := by
  simp [CollectInv, Collect.init, GoMap.has]

/-- The state after the collection loop, in closed form, when no
candidate is a directory. -/
theorem collect_spec (config : Str) (GetContents : Str → Contents) (fuel : Nat)
    (changes : List Str) (hfuel : ∀ f ∈ changes, f.length + 2 ≤ fuel)
    (hdir : ∀ p ∈ enumeration config changes, GetContents p ≠ .directory) :
    ∃ st, collect config GetContents fuel changes Collect.init = some (.ok st)
      ∧ st.fetched = firstOccurrences (enumeration config changes)
      ∧ st.files = fragments config (contentOf GetContents) changes
      ∧ st.order = (fragments config (contentOf GetContents) changes).map Prod.fst := by
  refine ⟨_, collect_eq_scan config GetContents fuel changes hfuel hdir _, ?_⟩
  obtain ⟨⟨_, hf, ho⟩, hfe⟩ := scan_inv (contentOf GetContents) (enumeration config changes) _
    (collectInv_init _)
  have hfe2 : (scan (contentOf GetContents) Collect.init (enumeration config changes)).fetched
      = firstOccurrences (enumeration config changes) := by
    rw [hfe]; rfl
  refine ⟨hfe2, ?_, ?_⟩
  · rw [hf, hfe2]; rfl
  · rw [ho, hf, hfe2]; rfl

/-! ## Lemmas: the result of `Find` -/

theorem fragments_sound (config : Str) (g : Str → Option Str) (changes : List Str) :
    ∀ kv ∈ fragments config g changes, g kv.1 = some kv.2 := by
  intro kv hkv
  obtain ⟨q, _, hq⟩ := List.mem_filterMap.1 hkv
  unfold fragmentAt at hq
  cases hgq : g q with
  | none => simp [hgq] at hq
  | some c =>
    simp only [hgq, Option.map_some', Option.some.injEq] at hq
    rw [← hq]
    exact hgq

theorem GoMap.at_of_mem (g : Str → Option Str) (F : GoMap Str)
    (hF : ∀ kv ∈ F, g kv.1 = some kv.2) : ∀ kv ∈ F, F.at kv.1 [] = kv.2 := by
  intro kv hkv
  unfold GoMap.at
  cases hfind : F.find? (fun x => x.1 == kv.1) with
  | none =>
    have := List.find?_eq_none.1 hfind kv hkv
    simp at this
  | some kv2 =>
    have h1 : kv2.1 = kv.1 := by simpa using List.find?_some hfind
    have h2 := hF kv2 (List.mem_of_find?_eq_some hfind)
    have h3 := hF kv hkv
    rw [h1, h3] at h2
    simpa using h2.symm

theorem joinDocs_cons_append (x b : Str) (rest : List Str) :
    joinDocs ((x ++ docSep ++ b) :: rest) = x ++ docSep ++ joinDocs (b :: rest) := by
  cases rest with
  | nil => simp [joinDocs]
  | cons r rs => simp [joinDocs, List.append_assoc]

theorem foldl_concatStep (files : GoMap Str) (F : List (Str × Str))
    (hF : ∀ kv ∈ F, files.at kv.1 [] = kv.2) (acc : Str) (hacc : acc ≠ []) :
    (F.map Prod.fst).foldl (concatStep files) acc = joinDocs (acc :: F.map block) := by
  induction F generalizing acc with
  | nil => simp [joinDocs]
  | cons kv rest ih =>
    have h1 : concatStep files acc kv.1 = acc ++ docSep ++ block kv := by
      simp [concatStep, hacc, hF kv (by simp), block]
    simp only [List.map_cons, List.foldl_cons, h1]
    rw [ih (fun x hx => hF x (List.mem_cons_of_mem _ hx)) _ (by simp [hacc]),
      joinDocs_cons_append]
    rfl

theorem foldl_concatStep_nil (files : GoMap Str) (F : List (Str × Str))
    (hF : ∀ kv ∈ F, files.at kv.1 [] = kv.2) :
    (F.map Prod.fst).foldl (concatStep files) [] = joinDocs (F.map block) := by
  cases F with
  | nil => simp [joinDocs]
  | cons kv rest =>
    have h1 : concatStep files [] kv.1 = block kv := by
      simp [concatStep, hF kv (by simp), block]
    simp only [List.map_cons, List.foldl_cons, h1]
    exact foldl_concatStep files rest (fun x hx => hF x (List.mem_cons_of_mem _ hx)) _
      (by simp [block, originLine])

theorem Find_no_fragment (concat : Bool) (config : Str) (GetContents : Str → Contents)
    (fuel : Nat) (changes : List Str) (hfuel : ∀ f ∈ changes, f.length + 2 ≤ fuel)
    (hdir : ∀ p ∈ enumeration config changes, GetContents p ≠ .directory)
    (h : fragments config (contentOf GetContents) changes = []) :
    Find concat config GetContents fuel changes = some (.error noConfigMsg) := by
  obtain ⟨st, hst, _, hf, _⟩ := collect_spec config GetContents fuel changes hfuel hdir
  simp [Find, hst, finish, hf, h]

theorem Find_first_fragment (config : Str) (GetContents : Str → Contents) (fuel : Nat)
    (changes : List Str) (hfuel : ∀ f ∈ changes, f.length + 2 ≤ fuel)
    (hdir : ∀ p ∈ enumeration config changes, GetContents p ≠ .directory)
    (p c : Str) (rest : List (Str × Str))
    (h : fragments config (contentOf GetContents) changes = (p, c) :: rest) :
    Find false config GetContents fuel changes = some (.config c) := by
  obtain ⟨st, hst, _, hf, ho⟩ := collect_spec config GetContents fuel changes hfuel hdir
  have hat := GoMap.at_of_mem (contentOf GetContents) _
    (fragments_sound config (contentOf GetContents) changes) (p, c) (by simp [h])
  rw [← hf] at hat
  simp only at hat
  simp [Find, hst, finish, hf, ho, h]
  rw [← h, ← hf]
  exact hat

theorem Find_all_fragments (config : Str) (GetContents : Str → Contents) (fuel : Nat)
    (changes : List Str) (hfuel : ∀ f ∈ changes, f.length + 2 ≤ fuel)
    (hdir : ∀ p ∈ enumeration config changes, GetContents p ≠ .directory)
    (h : fragments config (contentOf GetContents) changes ≠ []) :
    Find true config GetContents fuel changes
      = some (.config (joinDocs ((fragments config (contentOf GetContents) changes).map block))) := by
  obtain ⟨st, hst, _, hf, ho⟩ := collect_spec config GetContents fuel changes hfuel hdir
  have hat := GoMap.at_of_mem (contentOf GetContents) _
    (fragments_sound config (contentOf GetContents) changes)
  rw [← hf] at hat
  have hlen : st.files.length ≠ 0 := by
    rw [hf]; simpa using h
  simp only [Find, hst, finish, hlen, if_false]
  rw [ho, foldl_concatStep_nil st.files _ (by rw [← hf]; exact hat)]
  simp

theorem fragments_eq_nil_iff (config : Str) (g : Str → Option Str) (changes : List Str) :
    fragments config g changes = [] ↔ ∀ p ∈ enumeration config changes, g p = none := by
  unfold fragments
  rw [List.filterMap_eq_nil_iff]
  constructor
  · intro h p hp
    have := h p ((mem_firstOccurrences _ _).2 hp)
    simpa [fragmentAt] using this
  · intro h p hp
    simp [fragmentAt, h p ((mem_firstOccurrences _ _).1 hp)]

theorem fragments_head (config : Str) (g : Str → Option Str) (changes : List Str) (p c : Str)
    (hfind : (enumeration config changes).find? (fun q => (g q).isSome) = some p)
    (hg : g p = some c) :
    ∃ rest, fragments config g changes = (p, c) :: rest := by
  obtain ⟨_, as, bs, hL, has⟩ := List.find?_eq_some.1 hfind
  unfold fragments firstOccurrences
  rw [hL, List.foldl_append, List.foldl_cons]
  have hA : ∀ x ∈ as.foldl seen [], g x = none := by
    intro x hx
    have hx2 : x ∈ as := by simpa [mem_foldl_seen] using hx
    simpa using has x hx2
  have hp : p ∉ as.foldl seen [] := by
    intro hh
    rw [hA p hh] at hg
    exact absurd hg (by simp)
  have hseen : seen (as.foldl seen []) p = as.foldl seen [] ++ [p] := by simp [seen, hp]
  obtain ⟨extra, hex⟩ := foldl_seen_prefix bs (as.foldl seen [] ++ [p])
  rw [hseen, hex]
  have hnone : (as.foldl seen []).filterMap (fragmentAt g) = [] := by
    rw [List.filterMap_eq_nil_iff]
    intro x hx
    simp [fragmentAt, hA x hx]
  refine ⟨extra.filterMap (fragmentAt g), ?_⟩
  simp [List.filterMap_append, hnone, fragmentAt, hg]

/-! ## Lemmas: the root candidate of a walk -/

theorem foldl_applyElem_shape (l : List Str) :
    ∃ (k : Nat) (r : List Str), ∀ S, l.foldl applyElem S = r ++ S.drop k := by
  induction l with
  | nil => exact ⟨0, [], fun S => by simp⟩
  | cons e rest ih =>
    obtain ⟨k, r, h⟩ := ih
    by_cases h1 : e = [] ∨ e = ['.']
    · exact ⟨k, r, fun S => by simp [applyElem, h1, h]⟩
    · by_cases h2 : e = ['.', '.']
      · refine ⟨k + 1, r, fun S => ?_⟩
        simp only [List.foldl_cons, applyElem, h1, h2, if_true, if_false, h]
        simp
      · cases k with
        | zero =>
          refine ⟨0, r ++ [e], fun S => ?_⟩
          simp [applyElem, h1, h2, h]
        | succ n =>
          refine ⟨n, r, fun S => ?_⟩
          simp [applyElem, h1, h2, h]

theorem candidate_stays (config : Str) (S T : List Str) (hS : ∀ x ∈ S, IsElem x)
    (hT : ∀ x ∈ T, IsElem x) (hlen : T.length ≤ S.length)
    (h : Join [dirOf S, config] = Join [dirOf [], config]) :
    Join [dirOf T, config] = Join [dirOf [], config] := by
  have hnil : ∀ x ∈ ([] : List Str), IsElem x := by simp
  rw [Join_dirOf S hS, Join_dirOf [] hnil] at h
  rw [Join_dirOf T hT, Join_dirOf [] hnil]
  have hv := fun (U : List Str) (hU : ∀ x ∈ U, IsElem x) =>
    foldl_applyElem_valid (Split '/' config) (Split_noSep '/' config) U hU
  have heq := dirOf_injective _ _ (hv S hS) (hv [] hnil) h
  obtain ⟨k, r, hshape⟩ := foldl_applyElem_shape (Split '/' config)
  rw [hshape S, hshape []] at heq
  rw [hshape T, hshape []]
  have hdrop : S.drop k = [] := by simpa using heq
  have hk : S.length ≤ k := by simpa using hdrop
  have : T.drop k = [] := by
    simp only [List.drop_eq_nil_iff]
    omega
  simp [this]

theorem foldl_seen_subset (l acc : List Str) (h : ∀ x ∈ l, x ∈ acc) : l.foldl seen acc = acc := by
  induction l with
  | nil => rfl
  | cons p rest ih =>
    have hp : seen acc p = acc := by simp [seen, h p (by simp)]
    simp only [List.foldl_cons, hp]
    exact ih (fun x hx => h x (List.mem_cons_of_mem _ hx))

theorem getLast_foldl_seen (x : Str) (G acc : List Str) (hacc : x ∉ acc) (hx : x ∈ G)
    (hG : G.Pairwise (fun a b => a = x → b = x)) :
    (G.foldl seen acc).getLast? = some x := by
  induction G generalizing acc with
  | nil => simp at hx
  | cons y rest ih =>
    rw [List.pairwise_cons] at hG
    by_cases hy : y = x
    · subst hy
      have h1 : seen acc y = acc ++ [y] := by simp [seen, hacc]
      have h2 : rest.foldl seen (acc ++ [y]) = acc ++ [y] :=
        foldl_seen_subset rest _ (fun z hz => by simp [hG.1 z hz rfl])
      simp [h1, h2]
    · have hx2 : x ∈ rest := by
        rcases List.mem_cons.1 hx with h | h
        · exact absurd h.symm hy
        · exact h
      have hacc2 : x ∉ seen acc y := by
        rw [mem_seen]
        rintro (h | h)
        · exact hacc h
        · exact hy h.symm
      simpa using ih _ hacc2 hx2 hG.2

theorem tails_candidates_pairwise (config : Str) (T : List Str) (hT : ∀ x ∈ T, IsElem x) :
    (T.tails).Pairwise (fun S1 S2 =>
      Join [dirOf S1, config] = Join [dirOf [], config]
        → Join [dirOf S2, config] = Join [dirOf [], config]) := by
  induction T with
  | nil => simp
  | cons e T2 ih =>
    have hT2 : ∀ x ∈ T2, IsElem x := fun x hx => hT x (List.mem_cons_of_mem _ hx)
    simp only [List.tails, List.pairwise_cons]
    refine ⟨?_, ih hT2⟩
    intro S2 hS2 h
    have hsuf : S2 <:+ T2 := (List.mem_tails _ _).1 hS2
    have hv : ∀ x ∈ S2, IsElem x := fun x hx => hT2 x (hsuf.subset hx)
    have hl : S2.length ≤ (e :: T2).length := by
      have := hsuf.length_le
      simp; omega
    exact candidate_stays config (e :: T2) S2 hT hv hl h

/-! ## The legacy resolver: candidate enumeration -/

theorem count_eq_one_of_nodup (l : List Str) (a : Str) (hnd : l.Nodup) (h : a ∈ l) :
    l.count a = 1 := by
  induction l with
  | nil => simp at h
  | cons b rest ih =>
    rw [List.nodup_cons] at hnd
    rw [List.count_cons]
    by_cases hab : b = a
    · subst hab
      have : rest.count b = 0 := List.count_eq_zero.2 hnd.1
      simp [this]
    · have hmem : a ∈ rest := by
        rcases List.mem_cons.1 h with h1 | h1
        · exact absurd h1.symm hab
        · exact h1
      simp [ih hnd.2 hmem, hab]

/-- When no candidate is a directory, the collection loop of `plugin.Find`
ends, it never calls `getGithubFile` twice on the same path, and the
candidate `path.Join(dir, Repo.Config)` of every directory level `dir` of
every changed file, from its containing directory up to the root, is
fetched exactly once in the whole resolution. -/
theorem fetches_each_candidate_once_of_no_directory (config : Str)
    (GetContents : Str → Contents) (fuel : Nat) (changes : List Str)
    (hfuel : ∀ f ∈ changes, f.length + 2 ≤ fuel)
    (hdir : ∀ p ∈ enumeration config changes, GetContents p ≠ .directory) :
    ∃ st, collect config GetContents fuel changes Collect.init = some (.ok st)
      ∧ st.fetched.Nodup
      ∧ ∀ f ∈ changes, ∀ dir ∈ ancestorDirs f, st.fetched.count (Join [dir, config]) = 1 := by
  obtain ⟨st, hst, hfe, _, _⟩ := collect_spec config GetContents fuel changes hfuel hdir
  have hnd : st.fetched.Nodup := by rw [hfe]; exact nodup_firstOccurrences _
  refine ⟨st, hst, hnd, ?_⟩
  intro f hf dir hmem
  apply count_eq_one_of_nodup _ _ hnd
  rw [hfe, mem_firstOccurrences]
  unfold enumeration
  rw [List.mem_flatMap]
  exact ⟨f, hf, List.mem_map.2 ⟨dir, hmem, rfl⟩⟩

theorem fetches_each_candidate_once_example :
    ∃ st, collect "config.yml".toList repoDeepAndRoot 16
        ["/a/b/app.go".toList, "a/c/x".toList] Collect.init = some (.ok st)
      ∧ st.fetched.Nodup
      ∧ ∀ f ∈ ["/a/b/app.go".toList, "a/c/x".toList], ∀ dir ∈ ancestorDirs f,
          st.fetched.count (Join [dir, "config.yml".toList]) = 1 :=
  fetches_each_candidate_once_of_no_directory "config.yml".toList repoDeepAndRoot 16
    ["/a/b/app.go".toList, "a/c/x".toList] (by decide) (by decide)

/-- C1, on the code: for the changed file `a/f` and the config name
`config.yml`, with `/a/config.yml` a directory, `getGithubFile` panics on
the candidate `/a/config.yml`; the loop stops there, and the candidate
`/config.yml` of the directory level `/` is never fetched. -/
theorem collect_directory_candidate_panics :
    ancestorDirs "a/f".toList = ["/a".toList, ['/']]
      ∧ Join [['/'], "config.yml".toList] = "/config.yml".toList
      ∧ collect "config.yml".toList repoDirectory 16 ["a/f".toList] Collect.init
        = some (.nilPanic
            { files := [], order := [], cache := [("/a/config.yml".toList, true)],
              fetched := ["/a/config.yml".toList] })
      ∧ List.count "/config.yml".toList ["/a/config.yml".toList] = 0 := by
  decide

/-- When no candidate of the changed file is a directory, the ancestor walk
of that file started from the empty `cache` ends within the file name's
length plus two iterations, and the sequence of candidates it fetches has
the root candidate `path.Join("/", Repo.Config)` as its last element and
contains it exactly once. -/
theorem root_candidate_last_of_no_directory (config : Str) (GetContents : Str → Contents)
    (filename : Str) (fuel : Nat) (hfuel : filename.length + 2 ≤ fuel)
    (hdir : ∀ dir ∈ ancestorDirs filename, GetContents (Join [dir, config]) ≠ .directory) :
    ∃ st, walk config GetContents fuel (startDir filename) Collect.init = some (.ok st)
      ∧ st.fetched.getLast? = some (Join [['/'], config])
      ∧ st.fetched.count (Join [['/'], config]) = 1 := by
  refine ⟨_, walk_startDir config GetContents filename fuel hfuel hdir _, ?_⟩
  obtain ⟨_, hfe⟩ := scan_inv (contentOf GetContents)
    ((ancestorDirs filename).map (fun dir => Join [dir, config])) _ (collectInv_init _)
  have hval : ∀ x ∈ (elemStack filename).tail, IsElem x :=
    fun x hx => elemStack_valid filename x (List.mem_of_mem_tail hx)
  have hroot : Join [['/'], config] = Join [dirOf [], config] := rfl
  have hmem : Join [['/'], config] ∈ (ancestorDirs filename).map (fun dir => Join [dir, config]) := by
    rw [hroot]
    refine List.mem_map.2 ⟨dirOf [], ?_, rfl⟩
    exact List.mem_map.2 ⟨[], by simp, rfl⟩
  have hpw : ((ancestorDirs filename).map (fun dir => Join [dir, config])).Pairwise
      (fun a b => a = Join [['/'], config] → b = Join [['/'], config]) := by
    unfold ancestorDirs
    rw [List.pairwise_map, List.pairwise_map]
    exact tails_candidates_pairwise config _ hval
  have hlast := getLast_foldl_seen _ _ [] (by simp) hmem hpw
  have hinit : Collect.init.fetched = [] := rfl
  rw [hinit] at hfe
  rw [hfe]
  refine ⟨hlast, count_eq_one_of_nodup _ _ (nodup_foldl_seen _ _ List.nodup_nil) ?_⟩
  rw [mem_foldl_seen]
  exact Or.inr hmem

theorem root_candidate_last_example :
    ∃ st, walk "../config.yml".toList repoDeepAndRoot 16 (startDir "a/b/app.go".toList)
        Collect.init = some (.ok st)
      ∧ st.fetched.getLast? = some (Join [['/'], "../config.yml".toList])
      ∧ st.fetched.count (Join [['/'], "../config.yml".toList]) = 1 :=
  root_candidate_last_of_no_directory "../config.yml".toList repoDeepAndRoot
    "a/b/app.go".toList 16 (by decide) (by decide)

/-- C5, on the code: the ancestor walk of the changed file `a/f`, started
from the empty `cache` with `/a/config.yml` a directory, ends by the panic
of `getGithubFile` on its first candidate; the root candidate
`path.Join("/", "config.yml")` is not among the candidates fetched. -/
theorem walk_directory_panics_before_root :
    walk "config.yml".toList repoDirectory 16 (startDir "a/f".toList) Collect.init
        = some (.nilPanic
            { files := [], order := [], cache := [("/a/config.yml".toList, true)],
              fetched := ["/a/config.yml".toList] })
      ∧ Join [['/'], "config.yml".toList] ∉ ["/a/config.yml".toList]
      ∧ ["/a/config.yml".toList].getLast? ≠ some (Join [['/'], "config.yml".toList]) := by
  decide

/-! ## The legacy resolver: the result -/

/-- When no candidate is a directory and `concat` is disabled,
`plugin.Find` returns exactly the content of the first successfully fetched
candidate in enumeration order, whatever later candidates exist. -/
theorem returns_first_found_of_no_directory (config : Str) (GetContents : Str → Contents)
    (fuel : Nat) (changes : List Str) (p content : Str)
    (hfuel : ∀ f ∈ changes, f.length + 2 ≤ fuel)
    (hdir : ∀ q ∈ enumeration config changes, GetContents q ≠ .directory)
    (hfirst : (enumeration config changes).find?
      (fun q => (contentOf GetContents q).isSome) = some p)
    (hcontent : contentOf GetContents p = some content) :
    Find false config GetContents fuel changes = some (.config content) := by
  obtain ⟨rest, h⟩ :=
    fragments_head config (contentOf GetContents) changes p content hfirst hcontent
  exact Find_first_fragment config GetContents fuel changes hfuel hdir p content rest h

theorem returns_first_found_example :
    enumeration "config.yml".toList ["/a/b/app.go".toList]
        = ["/a/b/config.yml".toList, "/a/config.yml".toList, "/config.yml".toList]
      ∧ contentOf repoDeepAndRoot "/config.yml".toList = some "root".toList
      ∧ Find false "config.yml".toList repoDeepAndRoot 16 ["/a/b/app.go".toList]
        = some (.config "deep".toList) :=
  ⟨by decide, by decide,
    returns_first_found_of_no_directory "config.yml".toList repoDeepAndRoot 16
      ["/a/b/app.go".toList] "/a/b/config.yml".toList "deep".toList
      (by decide) (by decide) (by decide) (by decide)⟩

/-- C2, on the code: with `concat` disabled, the changed file
`/a/b/app.go` and the config name `config.yml`, the first candidate
`/a/b/config.yml` is fetched successfully, yet `plugin.Find` does not
return its content: it goes on to the candidate `/a/config.yml`, which is
a directory, and `getGithubFile` panics. -/
theorem Find_first_found_directory_panics :
    (enumeration "config.yml".toList ["/a/b/app.go".toList]).find?
        (fun q => (contentOf repoFileThenDirectory q).isSome) = some "/a/b/config.yml".toList
      ∧ contentOf repoFileThenDirectory "/a/b/config.yml".toList = some "deep".toList
      ∧ Find false "config.yml".toList repoFileThenDirectory 16 ["/a/b/app.go".toList]
        = some .nilPanic := by
  decide

theorem joinDocs_prefix (b : Str) (rest : List Str) : b <+: joinDocs (b :: rest) := by
  cases rest with
  | nil => simp [joinDocs]
  | cons r rs => simp [joinDocs, List.append_assoc]

theorem joinDocs_suffix (l : List Str) (b : Str) (h : l.getLast? = some b) : b <:+ joinDocs l := by
  induction l with
  | nil => simp at h
  | cons x rest ih =>
    cases rest with
    | nil =>
      have : x = b := by simpa using h
      subst this
      simp [joinDocs]
    | cons r rs =>
      have h2 : (r :: rs).getLast? = some b := by
        rw [List.getLast?_cons_cons] at h
        exact h
      obtain ⟨t, ht⟩ := ih h2
      exact ⟨x ++ docSep ++ t, by simp [joinDocs, ← ht, List.append_assoc]⟩

/-- When no candidate is a directory, `concat` is enabled and at least one
fragment is found, `plugin.Find` returns the blocks
`"# .drone.yml origin: " + p + "\n" + c + "\n"` of the fragments `(p, c)` in
discovery order, with the separator `"\n---\n"` between consecutive blocks
only: the result starts with the origin line of the first fragment and
ends with the block of the last. -/
theorem concat_joins_blocks_of_no_directory (config : Str) (GetContents : Str → Contents)
    (fuel : Nat) (changes : List Str) (hfuel : ∀ f ∈ changes, f.length + 2 ≤ fuel)
    (hdir : ∀ q ∈ enumeration config changes, GetContents q ≠ .directory)
    (hne : fragments config (contentOf GetContents) changes ≠ []) :
    ∃ data, Find true config GetContents fuel changes = some (.config data)
      ∧ data = joinDocs ((fragments config (contentOf GetContents) changes).map block)
      ∧ (∀ first, (fragments config (contentOf GetContents) changes).head? = some first
          → originLine first.1 <+: data)
      ∧ (∀ last, (fragments config (contentOf GetContents) changes).getLast? = some last
          → block last <:+ data) := by
  refine ⟨_, Find_all_fragments config GetContents fuel changes hfuel hdir hne, rfl, ?_, ?_⟩
  · intro first hfirst
    cases hF : fragments config (contentOf GetContents) changes with
    | nil => exact absurd hF hne
    | cons kv rest =>
      rw [hF] at hfirst
      have : kv = first := by simpa using hfirst
      subst this
      have h1 := joinDocs_prefix (block kv) (rest.map block)
      have h2 : originLine kv.1 <+: block kv := ⟨kv.2 ++ ['\n'], by simp [block]⟩
      simpa using h2.trans h1
  · intro last hlast
    apply joinDocs_suffix
    rw [List.getLast?_map, hlast]
    rfl

theorem concat_joins_blocks_example :
    fragments "config.yml".toList (contentOf repoXY) ["/a/app.go".toList]
        = [("/a/config.yml".toList, ['X']), ("/config.yml".toList, ['Y'])]
      ∧ Find true "config.yml".toList repoXY 16 ["/a/app.go".toList]
        = some (.config
            "# .drone.yml origin: /a/config.yml\nX\n\n---\n# .drone.yml origin: /config.yml\nY\n".toList) := by
  decide

/-- C3, on the code: with `concat` enabled, the changed file `a/b/c/f` and
the config name `config.yml`, the two fragments `/a/b/c/config.yml` (`X`)
and `/a/b/config.yml` (`Y`) are found in that order, yet `plugin.Find`
returns no joined blocks: the next candidate `/a/config.yml` is a directory
and `getGithubFile` panics. -/
theorem Find_concat_directory_panics :
    fragments "config.yml".toList (contentOf repoTwoFilesThenDirectory) ["a/b/c/f".toList]
        = [("/a/b/c/config.yml".toList, ['X']), ("/a/b/config.yml".toList, ['Y'])]
      ∧ Find true "config.yml".toList repoTwoFilesThenDirectory 16 ["a/b/c/f".toList]
        = some .nilPanic := by
  decide

/-- When no candidate is a directory, `plugin.Find` always returns; it
returns the error "Did not found a .drone.yml" if and only if no candidate
path was fetched successfully, in particular for the empty changed-file
list; it never panics on `order[0]`, which exists whenever `files` is not
empty; and a configuration is returned only when at least one fragment was
found. -/
theorem error_iff_nothing_found_of_no_directory (concat : Bool) (config : Str)
    (GetContents : Str → Contents) (fuel : Nat) (changes : List Str)
    (hfuel : ∀ f ∈ changes, f.length + 2 ≤ fuel)
    (hdir : ∀ q ∈ enumeration config changes, GetContents q ≠ .directory) :
    (Find concat config GetContents fuel changes = some (.error noConfigMsg)
        ↔ ∀ p ∈ enumeration config changes, contentOf GetContents p = none)
      ∧ (changes = [] → Find concat config GetContents fuel changes = some (.error noConfigMsg))
      ∧ Find concat config GetContents fuel changes ≠ none
      ∧ Find concat config GetContents fuel changes ≠ some .indexPanic
      ∧ (∀ data, Find concat config GetContents fuel changes = some (.config data)
          → ∃ p ∈ enumeration config changes, (contentOf GetContents p).isSome = true)
      ∧ ∃ st, collect config GetContents fuel changes Collect.init = some (.ok st)
          ∧ (st.files.length ≠ 0 → ∃ fileName, st.order[0]? = some fileName) := by
  have hcases : (fragments config (contentOf GetContents) changes = []
        ∧ Find concat config GetContents fuel changes = some (.error noConfigMsg))
      ∨ (fragments config (contentOf GetContents) changes ≠ []
        ∧ ∃ data, Find concat config GetContents fuel changes = some (.config data)) := by
    cases hF : fragments config (contentOf GetContents) changes with
    | nil =>
      exact Or.inl ⟨rfl, Find_no_fragment concat config GetContents fuel changes hfuel hdir hF⟩
    | cons kv rest =>
      refine Or.inr ⟨by simp, ?_⟩
      cases concat with
      | false =>
        exact ⟨kv.2,
          Find_first_fragment config GetContents fuel changes hfuel hdir kv.1 kv.2 rest hF⟩
      | true =>
        exact ⟨_, Find_all_fragments config GetContents fuel changes hfuel hdir (by simp [hF])⟩
  have hiff := fragments_eq_nil_iff config (contentOf GetContents) changes
  refine ⟨?_, ?_, ?_, ?_, ?_, ?_⟩
  · constructor
    · intro h
      rcases hcases with ⟨h1, _⟩ | ⟨_, data, h2⟩
      · exact hiff.1 h1
      · rw [h2] at h
        simp at h
    · intro h
      rcases hcases with ⟨_, h2⟩ | ⟨h1, _⟩
      · exact h2
      · exact absurd (hiff.2 h) h1
  · intro h
    subst h
    rcases hcases with ⟨_, h2⟩ | ⟨h1, _⟩
    · exact h2
    · exact absurd (hiff.2 (by simp [enumeration])) h1
  · rcases hcases with ⟨_, h2⟩ | ⟨_, data, h2⟩ <;> simp [h2]
  · rcases hcases with ⟨_, h2⟩ | ⟨_, data, h2⟩ <;> simp [h2]
  · intro data h
    rcases hcases with ⟨_, h2⟩ | ⟨h1, _⟩
    · rw [h2] at h
      simp at h
    · by_contra hcon
      apply h1
      rw [hiff]
      intro p hp
      cases hg : contentOf GetContents p with
      | none => rfl
      | some c => exact absurd ⟨p, hp, by simp [hg]⟩ hcon
  · obtain ⟨st, hst, _, hf, ho⟩ := collect_spec config GetContents fuel changes hfuel hdir
    refine ⟨st, hst, ?_⟩
    intro hlen
    rw [ho]
    cases hF : fragments config (contentOf GetContents) changes with
    | nil => rw [hf, hF] at hlen; simp at hlen
    | cons kv rest => exact ⟨kv.1, by simp⟩

theorem error_iff_nothing_found_example :
    Find false "config.yml".toList (fun _ => Contents.failed) 16 ["/a/app.go".toList]
      = some (.error noConfigMsg) :=
  (error_iff_nothing_found_of_no_directory false "config.yml".toList
    (fun _ => Contents.failed) 16 ["/a/app.go".toList] (by decide) (by decide)).1.2
      (fun _ _ => rfl)

/-- C4, on the code: for the changed file `a/f` and the config name
`config.yml`, with `/a/config.yml` a directory and no configuration file
anywhere, no candidate is fetched successfully, yet `plugin.Find` does not
return the error "Did not found a .drone.yml": `getGithubFile` panics on
`/a/config.yml`, with `concat` disabled and with `concat` enabled. -/
theorem Find_nothing_found_directory_panics :
    (∀ p ∈ enumeration "config.yml".toList ["a/f".toList], contentOf repoDirectory p = none)
      ∧ Find false "config.yml".toList repoDirectory 16 ["a/f".toList] = some .nilPanic
      ∧ Find true "config.yml".toList repoDirectory 16 ["a/f".toList] = some .nilPanic
      ∧ Find false "config.yml".toList repoDirectory 16 ["a/f".toList]
        ≠ some (.error noConfigMsg) := by
  decide

/-- C6, amended. Whenever exactly one fragment `(p, c)` is found and no
candidate is a directory, `plugin.Find` returns `c` verbatim when `concat`
is disabled, and the single block
`"# .drone.yml origin: " + p + "\n" + c + "\n"` when `concat` is enabled. -/
theorem Find_single_fragment (config : Str) (GetContents : Str → Contents)
    (fuel : Nat) (changes : List Str) (p c : Str)
    (hfuel : ∀ f ∈ changes, f.length + 2 ≤ fuel)
    (hdir : ∀ q ∈ enumeration config changes, GetContents q ≠ .directory)
    (h : fragments config (contentOf GetContents) changes = [(p, c)]) :
    Find false config GetContents fuel changes = some (.config c)
      ∧ Find true config GetContents fuel changes
          = some (.config (originLine p ++ c ++ ['\n'])) := by
  refine ⟨Find_first_fragment config GetContents fuel changes hfuel hdir p c [] h, ?_⟩
  rw [Find_all_fragments config GetContents fuel changes hfuel hdir (by simp [h]), h]
  rfl

theorem Find_single_fragment_witness :
    Find false "config.yml".toList repoRootOnly 16 ["app.go".toList] = some (.config ['X'])
      ∧ Find true "config.yml".toList repoRootOnly 16 ["app.go".toList]
          = some (.config (originLine "/config.yml".toList ++ ['X'] ++ ['\n'])) :=
  Find_single_fragment "config.yml".toList repoRootOnly 16 ["app.go".toList]
    "/config.yml".toList ['X'] (by decide) (by decide) (by decide)

/-- C6 as stated fails: with `concat` enabled and the single fragment
`/config.yml` holding `X`, no candidate being a directory, the result is
not `X`. -/
theorem Find_single_fragment_concat_not_verbatim :
    fragments "config.yml".toList (contentOf repoRootOnly) ["app.go".toList]
        = [("/config.yml".toList, ['X'])]
      ∧ (∀ q ∈ enumeration "config.yml".toList ["app.go".toList], repoRootOnly q ≠ .directory)
      ∧ Find true "config.yml".toList repoRootOnly 16 ["app.go".toList]
        = some (.config "# .drone.yml origin: /config.yml\nX\n".toList)
      ∧ Find true "config.yml".toList repoRootOnly 16 ["app.go".toList]
        ≠ some (.config ['X']) := by
  decide

/-! ## The change-set resolver -/

theorem Split_refs_pull (t : Str) :
    (Split '/' ("refs/pull/".toList ++ t))[2]? = (Split '/' t).head? := by
  have h : "refs/pull/".toList ++ t = "refs".toList ++ '/' :: ("pull".toList ++ '/' :: t) := rfl
  rw [h, Split_append, Split_append]
  have h1 : Split '/' "refs".toList = ["refs".toList] := by decide
  have h2 : Split '/' "pull".toList = ["pull".toList] := by decide
  rw [h1, h2]
  cases Split '/' t <;> simp

/-- C8. For every non-cron request whose ref starts with `refs/pull/`, the
third `/`-separated segment of the ref exists and `getScmChanges` does not
panic; if the segment parses as the integer `n`, the only call on the
client is `ChangedFilesInPullRequest(n)`; if it does not parse,
`getScmChanges` returns the error of `strconv.Atoi` and makes no call. -/
theorem getScmChanges_pull_request {ε : Type} (client : ScmClient ε) (build : Build)
    (hcron : build.Trigger ≠ "@cron".toList)
    (hpr : HasPrefix build.Ref "refs/pull/".toList = true) :
    ∃ seg, (Split '/' build.Ref)[2]? = some seg
      ∧ (getScmChanges client build).1 ≠ .indexPanic
      ∧ (∀ n, Atoi seg = some n →
          (getScmChanges client build).2 = [.ChangedFilesInPullRequest n])
      ∧ (Atoi seg = none →
          getScmChanges client build = (.returned [] (some (.atoi seg)), [])) := by
  obtain ⟨t, ht⟩ : ∃ t, build.Ref = "refs/pull/".toList ++ t := by
    have : "refs/pull/".toList <+: build.Ref := List.isPrefixOf_iff_prefix.1 hpr
    obtain ⟨t, ht⟩ := this
    exact ⟨t, ht.symm⟩
  have hseg : ∃ seg, (Split '/' build.Ref)[2]? = some seg := by
    rw [ht, Split_refs_pull]
    cases h : Split '/' t with
    | nil => exact absurd h (Split_ne_nil _ _)
    | cons e es => exact ⟨e, rfl⟩
  obtain ⟨seg, hseg⟩ := hseg
  refine ⟨seg, hseg, ?_, ?_, ?_⟩
  · unfold getScmChanges
    rw [if_neg hcron, if_pos hpr]
    simp only [hseg]
    cases Atoi seg with
    | none => simp
    | some n => simp only [returnChanges]; split <;> simp
  · intro n hn
    unfold getScmChanges
    rw [if_neg hcron, if_pos hpr]
    simp only [hseg, hn]
  · intro hn
    unfold getScmChanges
    rw [if_neg hcron, if_pos hpr]
    simp only [hseg, hn]

theorem getScmChanges_pull_request_witness :
    (getScmChanges brokenPullRequests pullRequest42).2 = [.ChangedFilesInPullRequest 42] := by
  obtain ⟨seg, hseg, _, h, _⟩ :=
    getScmChanges_pull_request brokenPullRequests pullRequest42 (by decide) (by decide)
  have h42 : (Split '/' pullRequest42.Ref)[2]? = some "42".toList := by decide
  rw [h42] at hseg
  have : seg = "42".toList := (Option.some.inj hseg).symm
  subst this
  exact h 42 (by decide)

/-- C9. For every push request (the trigger is not `@cron` and the ref does
not start with `refs/pull/`), the only call `getScmChanges` makes on the
client is `ChangedFilesInDiff(base, Build.After)`, where `base` is
`Build.After + "~1"` when `Build.Before` is forty zeros or empty, and
`Build.Before` otherwise. -/
theorem getScmChanges_push {ε : Type} (client : ScmClient ε) (build : Build)
    (hcron : build.Trigger ≠ "@cron".toList)
    (hpr : HasPrefix build.Ref "refs/pull/".toList = false) :
    (getScmChanges client build).2
      = [.ChangedFilesInDiff
          (if build.Before = List.replicate 40 '0' ∨ build.Before = []
            then build.After ++ ['~', '1'] else build.Before)
          build.After] := by
  have hz : zeroCommit = List.replicate 40 '0' := by decide
  unfold getScmChanges
  rw [if_neg hcron, if_neg (by rw [hpr]; simp)]
  simp only [hz]
  split <;> rfl

theorem getScmChanges_push_witness :
    (getScmChanges brokenPullRequests firstPush).2
      = [.ChangedFilesInDiff "abc~1".toList "abc".toList] := by
  have h := getScmChanges_push brokenPullRequests firstPush (by decide) (by decide)
  rw [h]
  decide

/-- C7, on the code: when `ChangedFilesInPullRequest` fails, `getScmChanges`
returns a nil slice and a nil error. -/
theorem getScmChanges_drops_pull_request_error :
    (brokenPullRequests.ChangedFilesInPullRequest 42).2 = some ()
      ∧ getScmChanges brokenPullRequests pullRequest42
        = (.returned [] none, [.ChangedFilesInPullRequest 42]) := by
  decide

/-- C10, on the code: for a fork build the base passed to `CompareCommits`
is `Repo.Name:Repo.Branch`, not `Repo.Namespace:Repo.Branch`. -/
theorem compareRefs_fork_base_uses_repo_name :
    compareRefs forkRequest = ("hello:master".toList, "alice:feature".toList)
      ∧ (compareRefs forkRequest).1 ≠ "octo:master".toList := by
  decide

end DroneTreeConfig
